import Mathlib

/-!
Verification development for the snapcat core (directory walking, content
capture, tree rendering, eager and streaming scan engines).

The Rust sources are shallowly embedded as follows:

* `std::path::Path` values are modelled as their normalized component
  sequences (`RPath = List Comp`), matching the view that `Path::components`,
  `Path::strip_prefix`, `Path::file_name` and `Ord for Path` operate on.
* The filesystem seen by one scan is modelled by `FsModel`: the directory
  tree rooted at the scanned root (`FsTree`), plus the abstract matching
  semantics of the ignore-file sources consulted by the `ignore` crate
  (which rules of the project gitignore files, `.ignore` files, and
  git-exclude or global-gitignore files match a given path).  The pattern
  matching itself is third-party crate behaviour and is kept abstract as
  predicates; the wiring of flags in `Walker::new` is embedded exactly.
* Fallible I/O is modelled by explicit failure flags on files and
  readability flags on directories; fallible Rust functions return
  `Except SnapcatError`.  A Rust panic (the `unwrap` in the tree renderer)
  is modelled as `Option.none`.
* Machine integers (`u64` sizes) are modelled as `Nat`; no overflow is
  possible in the embedded arithmetic (only comparisons are performed).
-/

deriving instance DecidableEq for Except

/-- Model of one path component, after the normalization performed by
`Path::components` (mirrors `std::path::Component` without the Windows
prefix case). -/
inductive Comp where
  | rootDir
  | curDir
  | parentDir
  | normal (s : String)
deriving DecidableEq, Repr

/-- A path, as its component sequence. -/
abbrev RPath := List Comp

/-- Rendering of one component, model of its display form. -/
def Comp.display : Comp → String
  | .rootDir => "/"
  | .curDir => "."
  | .parentDir => ".."
  | .normal s => s

/-- Model of `Path::display` (used in the tree header): the components
joined by the separator. -/
def pathDisplay (p : RPath) : String :=
  String.intercalate "/" (p.map Comp.display)

/-- Three-way comparison on strings, model of the byte-wise `Ord` used by
`OsStr` (here: the lexicographic order on Lean strings). -/
def cmpStr (s t : String) : Ordering :=
  if s < t then .lt else if s = t then .eq else .gt

/-- Model of the derived `Ord` on `std::path::Component`:
`RootDir < CurDir < ParentDir < Normal`, and `Normal` compares the names. -/
def Comp.cmp : Comp → Comp → Ordering
  | .rootDir, .rootDir => .eq
  | .rootDir, _ => .lt
  | _, .rootDir => .gt
  | .curDir, .curDir => .eq
  | .curDir, _ => .lt
  | _, .curDir => .gt
  | .parentDir, .parentDir => .eq
  | .parentDir, _ => .lt
  | _, .parentDir => .gt
  | .normal s, .normal t => cmpStr s t

/-- Model of `a.components().cmp(b.components())`: lexicographic comparison
of component sequences. -/
def pathCmp : RPath → RPath → Ordering
  | [], [] => .eq
  | [], _ :: _ => .lt
  | _ :: _, [] => .gt
  | a :: as, b :: bs =>
    match Comp.cmp a b with
    | .eq => pathCmp as bs
    | o => o

/-- The boolean order used to sort entries in the tree renderer (Rust
`sort_by` with a comparator sorts ascending). -/
def pathLe (a b : RPath) : Bool := (pathCmp a b).isLE

/-- Model of `Path::strip_prefix` followed by `unwrap_or(entry)`: drop the
root components when the root is a component-wise prefix, else keep the
entry unchanged. -/
def stripRoot (root entry : RPath) : RPath :=
  if root.isPrefixOf entry then entry.drop root.length else entry

/-- Model of `Path::file_name` on a normalized component sequence: the last
component when it is a named (`Normal`) component, and `none` when the path
is empty or ends in a root or parent component. -/
def fileName : RPath → Option String
  | p =>
    match p.getLast? with
    | some (.normal s) => some s
    | _ => none

/-- Repetition of a string, model of `str::repeat`. -/
def repeatStr (s : String) : Nat → String
  | 0 => ""
  | n + 1 => s ++ repeatStr s n

/-- One rendered line of the tree body for one (already sorted) entry.
`none` models the panic of the `unwrap` on `file_name`. -/
def entryLine (root : RPath) (entry : RPath) : Option String :=
  let relative := stripRoot root entry
  let depth := relative.length
  let pfx := if depth == 0 then "" else repeatStr "│   " (depth - 1) ++ "├── "
  match fileName relative with
  | some name => some (pfx ++ name)
  | none => none

/-- Option-valued traversal, model of the rendering loop that pushes one
line per entry and aborts on a panic. -/
def mapOpt {α β : Type} (f : α → Option β) : List α → Option (List β)
  | [] => some []
  | a :: rest =>
    match f a with
    | none => none
    | some b =>
      match mapOpt f rest with
      | none => none
      | some bs => some (b :: bs)

/-- The sort relation used on entries. -/
def pathRel (a b : RPath) : Prop := pathLe a b = true

instance : DecidableRel pathRel := fun a b => by
  unfold pathRel; infer_instance

/-- Model of `tree::build_tree_from_entries`: drop entries equal to the
root, sort the rest by component sequence, and render a header line plus
one line per entry.  `none` models the panic of the internal `unwrap` on
`file_name` (the Rust signature also allows an error value, but no code
path produces one).  The Rust `sort_by` is a stable sort; because the
comparator is a total antisymmetric order (proved below), every stable
sort returns the same list, so it is modelled by insertion sort.
`treeSorted` is the filter-and-sort step; `build_tree_from_entries` renders
the header and the lines. -/
def treeSorted (root : RPath) (entries : List RPath) : List RPath :=
  (entries.filter (fun p => p ≠ root)).insertionSort pathRel

def build_tree_from_entries (root : RPath) (entries : List RPath) : Option String :=
  match mapOpt (entryLine root) (treeSorted root entries) with
  | none => none
  | some lines => some (String.intercalate "\n" ((".  # " ++ pathDisplay root) :: lines))

example : build_tree_from_entries [.normal "r"] [[.normal "r"], [.normal "r", .normal "a.txt"]]
    = some (".  # r\n├── a.txt") := by decide

theorem cmpStr_eq_lt {s t : String} : cmpStr s t = .lt ↔ s < t := by
  unfold cmpStr
  split_ifs with h1 h2
  · exact iff_of_true rfl h1
  · exact iff_of_false (by simp) h1
  · exact iff_of_false (by simp) h1

theorem cmpStr_eq_eq {s t : String} : cmpStr s t = .eq ↔ s = t := by
  unfold cmpStr
  split_ifs with h1 h2
  · exact iff_of_false (by simp) (ne_of_lt h1)
  · exact iff_of_true rfl h2
  · exact iff_of_false (by simp) h2

theorem cmpStr_eq_gt {s t : String} : cmpStr s t = .gt ↔ t < s := by
  unfold cmpStr
  split_ifs with h1 h2
  · exact iff_of_false (by simp) (not_lt.mpr h1.le)
  · exact iff_of_false (by simp) (by rw [h2]; exact lt_irrefl t)
  · exact iff_of_true rfl (lt_of_le_of_ne (not_lt.mp h1) (Ne.symm h2))

theorem Comp.cmp_eq_eq {a b : Comp} : Comp.cmp a b = .eq ↔ a = b := by
  cases a <;> cases b <;> simp [Comp.cmp, cmpStr_eq_eq]

theorem Comp.cmp_lt_trans {a b c : Comp} (h1 : Comp.cmp a b = .lt)
    (h2 : Comp.cmp b c = .lt) : Comp.cmp a c = .lt := by
  cases a <;> cases b <;> cases c <;> simp_all [Comp.cmp, cmpStr_eq_lt]
  exact lt_trans h1 h2

theorem Comp.cmp_swap {a b : Comp} : (Comp.cmp a b).swap = Comp.cmp b a := by
  cases a <;> cases b <;> try rfl
  case normal.normal s t =>
    show (cmpStr s t).swap = cmpStr t s
    rcases lt_trichotomy s t with h | h | h
    · rw [cmpStr_eq_lt.mpr h, show cmpStr t s = .gt from cmpStr_eq_gt.mpr h]; rfl
    · rw [cmpStr_eq_eq.mpr h, show cmpStr t s = .eq from cmpStr_eq_eq.mpr h.symm]; rfl
    · rw [show cmpStr s t = .gt from cmpStr_eq_gt.mpr h, cmpStr_eq_lt.mpr h]; rfl

theorem pathCmp_eq_eq {a b : RPath} : pathCmp a b = .eq ↔ a = b := by
  induction a generalizing b with
  | nil => cases b <;> simp [pathCmp]
  | cons x xs ih =>
    cases b with
    | nil => simp [pathCmp]
    | cons y ys =>
      cases hxy : Comp.cmp x y with
      | lt =>
        apply iff_of_false
        · simp [pathCmp, hxy]
        · intro hcon
          injection hcon with hh _
          have := Comp.cmp_eq_eq.mpr hh
          simp [this] at hxy
      | eq =>
        have hx := Comp.cmp_eq_eq.mp hxy
        subst hx
        simp [pathCmp, hxy, ih]
      | gt =>
        apply iff_of_false
        · simp [pathCmp, hxy]
        · intro hcon
          injection hcon with hh _
          have := Comp.cmp_eq_eq.mpr hh
          simp [this] at hxy

theorem pathCmp_swap {a b : RPath} : (pathCmp a b).swap = pathCmp b a := by
  induction a generalizing b with
  | nil => cases b <;> rfl
  | cons x xs ih =>
    cases b with
    | nil => rfl
    | cons y ys =>
      have hyx := Comp.cmp_swap (a := x) (b := y)
      cases hxy : Comp.cmp x y with
      | lt =>
        rw [hxy] at hyx
        simp [pathCmp, hxy, ← hyx, Ordering.swap]
      | eq =>
        rw [hxy] at hyx
        have hyx2 : Comp.cmp y x = .eq := hyx.symm
        simp only [pathCmp, hxy, hyx2]
        exact ih
      | gt =>
        rw [hxy] at hyx
        simp [pathCmp, hxy, ← hyx, Ordering.swap]

theorem pathCmp_lt_trans {a b c : RPath} (h1 : pathCmp a b = .lt)
    (h2 : pathCmp b c = .lt) : pathCmp a c = .lt := by
  induction a generalizing b c with
  | nil =>
    cases b with
    | nil => exact absurd h1 (by simp [pathCmp])
    | cons y ys => cases c with
      | nil => exact absurd h2 (by simp [pathCmp])
      | cons z zs => simp [pathCmp]
  | cons x xs ih =>
    cases b with
    | nil => exact absurd h1 (by simp [pathCmp])
    | cons y ys =>
      cases c with
      | nil => exact absurd h2 (by simp [pathCmp])
      | cons z zs =>
        cases hxy : Comp.cmp x y with
        | gt => simp [pathCmp, hxy] at h1
        | lt =>
          cases hyz : Comp.cmp y z with
          | gt => simp [pathCmp, hyz] at h2
          | lt => simp [pathCmp, Comp.cmp_lt_trans hxy hyz]
          | eq =>
            have hy := Comp.cmp_eq_eq.mp hyz
            subst hy
            simp [pathCmp, hxy]
        | eq =>
          have hx := Comp.cmp_eq_eq.mp hxy
          subst hx
          cases hyz : Comp.cmp x z with
          | gt => simp [pathCmp, hyz] at h2
          | lt => simp [pathCmp, hyz]
          | eq =>
            simp only [pathCmp, hxy] at h1
            simp only [pathCmp, hyz] at h2
            simp only [pathCmp, hyz]
            exact ih h1 h2

theorem pathLe_iff {a b : RPath} :
    pathLe a b = true ↔ pathCmp a b = .lt ∨ pathCmp a b = .eq := by
  unfold pathLe
  cases h : pathCmp a b <;> simp [Ordering.isLE]

instance : IsTotal RPath pathRel := by
  constructor
  intro a b
  unfold pathRel
  rw [pathLe_iff, pathLe_iff]
  cases h : pathCmp a b with
  | lt => exact Or.inl (Or.inl rfl)
  | eq => exact Or.inl (Or.inr rfl)
  | gt =>
    have hba : pathCmp b a = .lt := by
      rw [← pathCmp_swap (a := a) (b := b), h]; rfl
    exact Or.inr (Or.inl hba)

instance : IsTrans RPath pathRel := by
  constructor
  intro a b c h1 h2
  unfold pathRel at *
  rw [pathLe_iff] at *
  rcases h1 with h1 | h1 <;> rcases h2 with h2 | h2
  · exact Or.inl (pathCmp_lt_trans h1 h2)
  · rw [← pathCmp_eq_eq.mp h2]; exact Or.inl h1
  · rw [pathCmp_eq_eq.mp h1]; exact Or.inl h2
  · rw [pathCmp_eq_eq.mp h1]; exact Or.inr h2

instance : IsAntisymm RPath pathRel := by
  constructor
  intro a b h1 h2
  unfold pathRel at *
  rw [pathLe_iff] at *
  rcases h1 with h1 | h1
  · rcases h2 with h2 | h2
    · have hgt : pathCmp a b = .gt := by
        rw [← pathCmp_swap (a := b) (b := a), h2]; rfl
      rw [h1] at hgt; exact absurd hgt (by simp)
    · exact (pathCmp_eq_eq.mp h2).symm
  · exact pathCmp_eq_eq.mp h1

/-- Auxiliary: traversal succeeds when every element succeeds. -/
theorem mapOpt_isSome {α β : Type} {f : α → Option β} {l : List α}
    (h : ∀ a ∈ l, (f a).isSome = true) : (mapOpt f l).isSome = true := by
  induction l with
  | nil => rfl
  | cons a rest ih =>
    have ha := h a (List.mem_cons_self a rest)
    rcases ho : f a with _ | b
    · rw [ho] at ha; simp at ha
    · have hr := ih (fun x hx => h x (List.mem_cons_of_mem _ hx))
      rcases hmo : mapOpt f rest with _ | bs
      · rw [hmo] at hr; simp at hr
      · simp [mapOpt, ho, hmo]

/-- Auxiliary: a line renders for every entry strictly under the root whose
relative path ends in a named component. -/
theorem entryLine_isSome {root e : RPath} (hpre : root.isPrefixOf e = true)
    (hname : (fileName (e.drop root.length)).isSome = true) :
    (entryLine root e).isSome = true := by
  unfold entryLine stripRoot
  rw [if_pos hpre]
  rcases hn : fileName (e.drop root.length) with _ | n
  · rw [hn] at hname; simp at hname
  · simp [hn]

/-- C6: the tree string is a function of the entry set alone.  For any two
entry lists that are permutations of each other, the renderer produces the
same output, because entries are sorted by component sequence (a total
antisymmetric order) before rendering. -/
theorem build_tree_perm_invariant (root : RPath) (e₁ e₂ : List RPath)
    (h : e₁.Perm e₂) :
    build_tree_from_entries root e₁ = build_tree_from_entries root e₂ := by
  unfold build_tree_from_entries
  have hs : treeSorted root e₁ = treeSorted root e₂ := by
    unfold treeSorted
    have hf : (e₁.filter (fun p => p ≠ root)).Perm (e₂.filter (fun p => p ≠ root)) :=
      h.filter _
    exact List.eq_of_perm_of_sorted
      (((List.perm_insertionSort _ _).trans hf).trans (List.perm_insertionSort _ _).symm)
      (List.sorted_insertionSort _ _) (List.sorted_insertionSort _ _)
  rw [hs]

/-- Witness for C6 at a concrete pair of permuted entry lists. -/
theorem build_tree_perm_invariant_witness :
    build_tree_from_entries [.normal "r"]
        [[.normal "r", .normal "b"], [.normal "r", .normal "a"]]
      = build_tree_from_entries [.normal "r"]
        [[.normal "r", .normal "a"], [.normal "r", .normal "b"]] :=
  build_tree_perm_invariant [.normal "r"]
    [[.normal "r", .normal "b"], [.normal "r", .normal "a"]]
    [[.normal "r", .normal "a"], [.normal "r", .normal "b"]] (by decide)

/-- Helper: the tree renders (no panic) when every entry other than the
root lies strictly under the root and its relative path ends in a named
component. -/
theorem tree_renders_of_entries (root : RPath) (entries : List RPath)
    (h : ∀ e ∈ entries, e ≠ root →
      root.isPrefixOf e = true ∧ (fileName (e.drop root.length)).isSome = true) :
    (build_tree_from_entries root entries).isSome = true := by
  unfold build_tree_from_entries
  have hl : ∀ e ∈ treeSorted root entries, (entryLine root e).isSome = true := by
    intro e he
    unfold treeSorted at he
    have he2 := ((List.perm_insertionSort _ _).mem_iff).mp he
    rw [List.mem_filter] at he2
    obtain ⟨hmem, hne⟩ := he2
    have hne2 : e ≠ root := by simpa using hne
    obtain ⟨hp, hn⟩ := h e hmem hne2
    exact entryLine_isSome hp hn
  have hsome := mapOpt_isSome hl
  rcases hmo : mapOpt (entryLine root) (treeSorted root entries) with _ | lines
  · rw [hmo] at hsome; simp at hsome
  · simp [hmo]

/-- C10: the tree renderer never panics when every entry other than the
root lies strictly under the root and its relative path ends in a named
component: under that precondition the internal `unwrap` on `file_name`
(modelled by the `none` result) is unreachable. -/
theorem build_tree_total (root : RPath) (entries : List RPath)
    (h : ∀ e ∈ entries, e ≠ root →
      root.isPrefixOf e = true ∧ (fileName (e.drop root.length)).isSome = true) :
    (build_tree_from_entries root entries).isSome = true :=
  tree_renders_of_entries root entries h

/-- Witness for C10 at a concrete root and entry list. -/
theorem build_tree_total_witness :
    (build_tree_from_entries [.normal "r"]
      [[.normal "r"], [.normal "r", .normal "a.txt"],
       [.normal "r", .normal "src"], [.normal "r", .normal "src", .normal "lib.rs"]]).isSome
      = true :=
  build_tree_total [.normal "r"]
    [[.normal "r"], [.normal "r", .normal "a.txt"],
     [.normal "r", .normal "src"], [.normal "r", .normal "src", .normal "lib.rs"]]
    (by decide)

/-- True when a byte is a UTF-8 continuation byte (10xxxxxx). -/
def utf8Cont (b : Nat) : Bool := decide (128 ≤ b ∧ b < 192)

/-- Strict UTF-8 decoder over a byte list: `some` exactly on valid UTF-8
(RFC 3629: no overlong forms, no surrogates, max U+10FFFF).  Model of the
validation performed by `Read::read_to_string` on the bytes it appends. -/
def utf8Decode? : List Nat → Option (List Char)
  | [] => some []
  | b :: rest =>
    if b < 128 then
      match utf8Decode? rest with
      | some cs => some (Char.ofNat b :: cs)
      | none => none
    else if b < 194 then none
    else if b < 224 then
      match rest with
      | b1 :: rest2 =>
        if utf8Cont b1 then
          match utf8Decode? rest2 with
          | some cs => some (Char.ofNat ((b - 192) * 64 + (b1 - 128)) :: cs)
          | none => none
        else none
      | [] => none
    else if b < 240 then
      match rest with
      | b1 :: b2 :: rest2 =>
        if utf8Cont b1 && utf8Cont b2 then
          let cp := (b - 224) * 4096 + (b1 - 128) * 64 + (b2 - 128)
          if cp < 2048 then none
          else if 55296 ≤ cp ∧ cp < 57344 then none
          else
            match utf8Decode? rest2 with
            | some cs => some (Char.ofNat cp :: cs)
            | none => none
        else none
      | _ => none
    else if b < 245 then
      match rest with
      | b1 :: b2 :: b3 :: rest2 =>
        if utf8Cont b1 && utf8Cont b2 && utf8Cont b3 then
          let cp := (b - 240) * 262144 + (b1 - 128) * 4096 + (b2 - 128) * 64 + (b3 - 128)
          if cp < 65536 then none
          else if 1114111 < cp then none
          else
            match utf8Decode? rest2 with
            | some cs => some (Char.ofNat cp :: cs)
            | none => none
        else none
      | _ => none
    else none

/-- Permissive (lossy) UTF-8 decoder: total, replaces invalid byte
sequences with U+FFFD.  Model of `String::from_utf8_lossy`; it agrees with
the strict decoder on valid input, which is the only case any claim
constrains (the exact count of replacement characters per invalid sequence
is not observable by any claim). -/
def utf8LossyGo : Nat → List Nat → List Char
  | 0, _ => []
  | _, [] => []
  | fuel + 1, b :: rest =>
    if b < 128 then Char.ofNat b :: utf8LossyGo fuel rest
    else if b < 194 then Char.ofNat 65533 :: utf8LossyGo fuel rest
    else if b < 224 then
      match rest with
      | b1 :: rest2 =>
        if utf8Cont b1 then Char.ofNat ((b - 192) * 64 + (b1 - 128)) :: utf8LossyGo fuel rest2
        else Char.ofNat 65533 :: utf8LossyGo fuel (b1 :: rest2)
      | [] => [Char.ofNat 65533]
    else if b < 240 then
      match rest with
      | b1 :: b2 :: rest2 =>
        if utf8Cont b1 && utf8Cont b2 then
          let cp := (b - 224) * 4096 + (b1 - 128) * 64 + (b2 - 128)
          if cp < 2048 then Char.ofNat 65533 :: utf8LossyGo fuel (b1 :: b2 :: rest2)
          else if 55296 ≤ cp ∧ cp < 57344 then
            Char.ofNat 65533 :: utf8LossyGo fuel (b1 :: b2 :: rest2)
          else Char.ofNat cp :: utf8LossyGo fuel rest2
        else Char.ofNat 65533 :: utf8LossyGo fuel (b1 :: b2 :: rest2)
      | [b1] => Char.ofNat 65533 :: utf8LossyGo fuel [b1]
      | [] => [Char.ofNat 65533]
    else if b < 245 then
      match rest with
      | b1 :: b2 :: b3 :: rest2 =>
        if utf8Cont b1 && utf8Cont b2 && utf8Cont b3 then
          let cp := (b - 240) * 262144 + (b1 - 128) * 4096 + (b2 - 128) * 64 + (b3 - 128)
          if cp < 65536 then Char.ofNat 65533 :: utf8LossyGo fuel (b1 :: b2 :: b3 :: rest2)
          else if 1114111 < cp then Char.ofNat 65533 :: utf8LossyGo fuel (b1 :: b2 :: b3 :: rest2)
          else Char.ofNat cp :: utf8LossyGo fuel rest2
        else Char.ofNat 65533 :: utf8LossyGo fuel (b1 :: b2 :: b3 :: rest2)
      | [b1, b2] => Char.ofNat 65533 :: utf8LossyGo fuel [b1, b2]
      | [b1] => Char.ofNat 65533 :: utf8LossyGo fuel [b1]
      | [] => [Char.ofNat 65533]
    else Char.ofNat 65533 :: utf8LossyGo fuel rest

def utf8Lossy (l : List Nat) : List Char := utf8LossyGo l.length l

/-- Binary detection strategies (`options::BinaryDetection`). -/
inductive BinaryDetection where
  | Simple
  | Accurate
  | None
deriving DecidableEq, Repr

/-- Errors (`error::SnapcatError`).  The `Io` variant of the source also
carries the underlying `std::io::Error`; the model keeps the tagged path,
which is what every claim observes. -/
inductive SnapcatError where
  | Io (path : RPath)
  | Walk (msg : String)
  | InvalidPath (msg : String)
  | BinaryDetection
deriving DecidableEq, Repr

/-- Model of one regular file as the filesystem presents it to the reader.
`size` is what `fs::metadata` reports; `bytes` are the content bytes (each
below 256 on a real file, which no claim needs).  The boolean flags model
the possible I/O failures of the four fallible operations performed by
`read_file_content`: the metadata call, `File::open`, reading the probe
window, and reading the remainder. -/
structure FsFile where
  size : Nat
  bytes : List Nat
  statErr : Bool
  openErr : Bool
  probeErr : Bool
  restErr : Bool
deriving DecidableEq, Repr

/-- The binary classification switch of `read_file_content`.  The
`Accurate` arm calls the external `content_inspector` crate, which is kept
abstract as the `inspect` parameter. -/
def isBinaryOf (bd : BinaryDetection) (probe : List Nat)
    (inspect : List Nat → Bool) : Bool :=
  match bd with
  | .Simple => probe.contains 0
  | .Accurate => inspect probe
  | .None => false

/-- Model of `engine::read_file_content`: size-ceiling check first (via a
metadata call, not a content read), then open, read the first 4096 bytes,
classify, and either return the binary placeholder or decode the probe
permissively and append the strictly-decoded remainder (the Rust
`read_to_string` fails on a remainder that is not valid UTF-8 on its own). -/
def read_file_content (path : RPath) (f : FsFile) (bd : BinaryDetection)
    (size_limit : Option Nat) (inspect : List Nat → Bool) :
    Except SnapcatError (String × Bool) :=
  let afterSizeCheck : Except SnapcatError (String × Bool) :=
    if f.openErr then .error (.Io path)
    else if f.probeErr then .error (.Io path)
    else
      let first_chunk := f.bytes.take 4096
      if isBinaryOf bd first_chunk inspect then
        .ok ("[Binary file, content omitted]", true)
      else if f.restErr then .error (.Io path)
      else
        match utf8Decode? (f.bytes.drop 4096) with
        | none => .error (.Io path)
        | some restChars =>
          .ok (String.mk (utf8Lossy first_chunk ++ restChars), false)
  match size_limit with
  | some limit =>
    if f.statErr then .error (.Io path)
    else if f.size > limit then .ok ("[File too large, content omitted]", false)
    else afterSizeCheck
  | none => afterSizeCheck

example : read_file_content [.normal "hello.txt"]
    ⟨5, [104, 101, 108, 108, 111], false, false, false, false⟩
    .None none (fun _ => false) = .ok ("hello", false) := by decide

/-- C3: when a size ceiling is configured and the metadata size strictly
exceeds it, the reader returns exactly the oversize placeholder with
`is_binary = false`.  The content bytes and the open/read failure flags are
universally quantified and unconstrained, so the file content is never
opened or read, and an oversized file is never classified binary
regardless of its bytes. -/
theorem oversize_placeholder (path : RPath) (f : FsFile) (bd : BinaryDetection)
    (inspect : List Nat → Bool) (limit : Nat)
    (hstat : f.statErr = false) (hsz : limit < f.size) :
    read_file_content path f bd (some limit) inspect
      = .ok ("[File too large, content omitted]", false) := by
  unfold read_file_content
  simp [hstat, hsz]

/-- Witness for C3: a 5000-byte file against a 100-byte ceiling. -/
theorem oversize_placeholder_witness :
    read_file_content [.normal "big.txt"]
        ⟨5000, List.replicate 5000 65, false, false, false, false⟩
        .Simple (some 100) (fun _ => false)
      = .ok ("[File too large, content omitted]", false) :=
  oversize_placeholder [.normal "big.txt"]
    ⟨5000, List.replicate 5000 65, false, false, false, false⟩
    .Simple (fun _ => false) 100 rfl (by decide)

/-- C4: under the null-byte strategy, for a file that reaches
classification (metadata, open and probe reads succeed, and the size is
within any configured ceiling), the reader returns the binary placeholder
with `is_binary = true` exactly when the first 4096 bytes contain a zero
byte.  The bytes beyond the probe window and the remainder-read failure
flag are unconstrained, so the remainder of the file is never read in the
binary case. -/
theorem nullbyte_binary_iff (path : RPath) (f : FsFile) (size_limit : Option Nat)
    (inspect : List Nat → Bool)
    (hstat : f.statErr = false) (hopen : f.openErr = false) (hprobe : f.probeErr = false)
    (hsz : ∀ limit, size_limit = some limit → f.size ≤ limit) :
    read_file_content path f .Simple size_limit inspect
        = .ok ("[Binary file, content omitted]", true)
      ↔ (f.bytes.take 4096).contains 0 = true := by
  have hbody : (if f.openErr then (.error (.Io path) : Except SnapcatError (String × Bool))
      else if f.probeErr then .error (.Io path)
      else
        if isBinaryOf .Simple (f.bytes.take 4096) inspect then
          .ok ("[Binary file, content omitted]", true)
        else if f.restErr then .error (.Io path)
        else
          match utf8Decode? (f.bytes.drop 4096) with
          | none => .error (.Io path)
          | some restChars =>
            .ok (String.mk (utf8Lossy (f.bytes.take 4096) ++ restChars), false))
        = .ok ("[Binary file, content omitted]", true)
      ↔ (f.bytes.take 4096).contains 0 = true := by
    rw [hopen, hprobe]
    simp only [Bool.false_eq_true, if_false]
    cases hb : (f.bytes.take 4096).contains 0 with
    | true =>
      apply iff_of_true _ rfl
      have hbin : isBinaryOf .Simple (f.bytes.take 4096) inspect = true := hb
      rw [hbin]
      simp
    | false =>
      apply iff_of_false _ (by simp)
      intro hcon
      have hbin : isBinaryOf .Simple (f.bytes.take 4096) inspect = false := hb
      rw [hbin] at hcon
      cases hr : f.restErr with
      | true => rw [hr] at hcon; simp at hcon
      | false =>
        rw [hr] at hcon
        rcases hd : utf8Decode? (f.bytes.drop 4096) with _ | restChars <;>
          rw [hd] at hcon <;> simp at hcon
  unfold read_file_content
  cases size_limit with
  | none => exact hbody
  | some limit =>
    have hle := hsz limit rfl
    rw [hstat]
    simp only [if_false, Bool.false_eq_true, gt_iff_lt, not_lt.mpr hle, if_neg (not_lt.mpr hle)]
    exact hbody

/-- Witness for C4: the four-byte file `[0, 1, 2, 3]` of the unit tests is
classified binary and yields the placeholder. -/
theorem nullbyte_binary_iff_witness :
    read_file_content [.normal "bin.dat"] ⟨4, [0, 1, 2, 3], false, false, false, false⟩
        .Simple none (fun _ => false)
      = .ok ("[Binary file, content omitted]", true) :=
  (nullbyte_binary_iff [.normal "bin.dat"] ⟨4, [0, 1, 2, 3], false, false, false, false⟩
    none (fun _ => false) rfl rfl rfl (fun _ h => nomatch h)).mpr (by decide)

set_option maxRecDepth 100000 in
/-- Counterexample to C1: a text-classified file can fail the read because
of bytes that are not valid UTF-8.  The file below is 4097 bytes: 4096
times the byte 65 followed by the byte 255.  Under the null-byte strategy
its probe window holds no zero byte, so it is classified text; yet the
remainder beyond the probe window, the single byte 255, is not valid UTF-8
on its own, so the Rust `read_to_string` of the remainder fails and
`read_file_content` returns an I/O error instead of the file content. -/
theorem text_decode_never_fatal_cex :
    isBinaryOf .Simple ((List.replicate 4096 65 ++ [255]).take 4096) (fun _ => false) = false
    ∧ read_file_content [.normal "f.txt"]
        ⟨4097, List.replicate 4096 65 ++ [255], false, false, false, false⟩
        .Simple none (fun _ => false)
      = .error (.Io [.normal "f.txt"]) := by
  constructor
  · decide
  · rfl

/-- C1 amended: for a file that reaches classification and is classified
text, the probe window is decoded permissively (the total `utf8Lossy`,
which replaces invalid sequences and never fails), and the call returns
the full content with `is_binary = false` provided the remainder of the
file beyond the 4096-byte probe window is valid UTF-8 on its own; in
particular a file no larger than the probe window never fails for
decoding reasons.  (The unamended claim is refuted by
`text_decode_never_fatal_cex`: invalid UTF-8 in the remainder makes the
call fail.) -/
theorem text_decode_ok (path : RPath) (f : FsFile) (bd : BinaryDetection)
    (size_limit : Option Nat) (inspect : List Nat → Bool) (restChars : List Char)
    (hstat : f.statErr = false) (hopen : f.openErr = false) (hprobe : f.probeErr = false)
    (hrest : f.restErr = false)
    (hsz : ∀ limit, size_limit = some limit → f.size ≤ limit)
    (htext : isBinaryOf bd (f.bytes.take 4096) inspect = false)
    (hdec : utf8Decode? (f.bytes.drop 4096) = some restChars) :
    read_file_content path f bd size_limit inspect
      = .ok (String.mk (utf8Lossy (f.bytes.take 4096) ++ restChars), false) := by
  have hbody : (if f.openErr then (.error (.Io path) : Except SnapcatError (String × Bool))
      else if f.probeErr then .error (.Io path)
      else
        if isBinaryOf bd (f.bytes.take 4096) inspect then
          .ok ("[Binary file, content omitted]", true)
        else if f.restErr then .error (.Io path)
        else
          match utf8Decode? (f.bytes.drop 4096) with
          | none => .error (.Io path)
          | some restChars =>
            .ok (String.mk (utf8Lossy (f.bytes.take 4096) ++ restChars), false))
      = .ok (String.mk (utf8Lossy (f.bytes.take 4096) ++ restChars), false) := by
    rw [hopen, hprobe, htext, hrest, hdec]
    simp
  unfold read_file_content
  cases size_limit with
  | none => exact hbody
  | some limit =>
    have hle := hsz limit rfl
    rw [hstat]
    simp only [Bool.false_eq_true, if_false, gt_iff_lt, if_neg (not_lt.mpr hle)]
    exact hbody

/-- Witness for C1 amended: a small ASCII file decodes to its content. -/
theorem text_decode_ok_witness :
    read_file_content [.normal "hello.txt"]
        ⟨11, [104, 101, 108, 108, 111], false, false, false, false⟩
        .Simple none (fun _ => false)
      = .ok ("hello", false) :=
  (text_decode_ok [.normal "hello.txt"]
    ⟨11, [104, 101, 108, 108, 111], false, false, false, false⟩
    .Simple none (fun _ => false) [] rfl rfl rfl rfl (fun _ h => nomatch h)
    (by decide) (by decide)).trans (by decide)

/-- Model of `options::SnapcatOptions`. -/
structure SnapcatOptions where
  root : RPath
  respect_gitignore : Bool
  max_depth : Option Nat
  include_hidden : Bool
  follow_links : Bool
  ignore_patterns : List String
  file_size_limit : Option Nat
  binary_detection : BinaryDetection
  include_file_size : Bool

mutual

/-- The directory tree under the scanned root.  A directory carries a
`readable` flag: an unreadable directory models a `read_dir` failure
(e.g. permission denied), which the walker surfaces as an item-level
error.  Symbolic links are not modelled (no claim concerns them). -/
inductive FsTree where
  | file (name : String) (data : FsFile)
  | dir (name : String) (readable : Bool) (children : FsForest)

/-- The children of a directory, kept mutual with `FsTree` so that the
walk recursion below is structural. -/
inductive FsForest where
  | nil
  | cons (t : FsTree) (rest : FsForest)

end

def FsTree.name : FsTree → String
  | .file n _ => n
  | .dir n _ _ => n

/-- The first child with the given name. -/
def FsForest.findByName : FsForest → String → Option FsTree
  | .nil, _ => none
  | .cons t rest, n => if t.name == n then some t else FsForest.findByName rest n

/-- The filesystem as one scan observes it: the tree at the root, whether
the root is inside a git repository, and the matching semantics of the
four ignore-rule sources the `ignore` crate can consult.  The pattern
matching of the crate is third-party behaviour, so each source is abstracted to
the predicate "some applicable rule of this source matches this path". -/
structure FsModel where
  tree : FsTree
  hasGitRepo : Bool
  gitignoreMatch : RPath → Bool
  dotignoreMatch : RPath → Bool
  gitGlobalMatch : RPath → Bool
  gitExcludeMatch : RPath → Bool

/-- The `ignore::WalkBuilder` switches relevant to this program:
`Walker::new` sets `git_ignore`, `hidden`, `max_depth`, `follow_links` and
`ignore`, installs a `filter_entry` predicate (`keep`), and leaves
`git_global`, `git_exclude` and `require_git` at their crate defaults
(all enabled). -/
structure WalkFlags where
  git_ignore : Bool
  git_global : Bool
  git_exclude : Bool
  dot_ignore : Bool
  hidden : Bool
  require_git : Bool
  max_depth : Option Nat
  follow_links : Bool
  keep : RPath → Bool

/-- Model of `Walker::new`: the builder wiring.  `globMatch` abstracts the
external `globset` matcher (pattern, path) and the `keep` predicate is the
`filter_entry` closure `!matcher.is_match(path)`; with no patterns the
filter is not installed, which is observationally the same as a filter
that always keeps.  Pattern-parse failures of `globset` are outside the
model. -/
def walkerFlags (options : SnapcatOptions) (globMatch : String → RPath → Bool) : WalkFlags :=
  { git_ignore := options.respect_gitignore
    git_global := true
    git_exclude := true
    dot_ignore := false
    hidden := !options.include_hidden
    require_git := true
    max_depth := options.max_depth
    follow_links := options.follow_links
    keep := fun p => !(options.ignore_patterns.any (fun pat => globMatch pat p)) }

/-- Whether a file name is hidden (dot-prefixed), the test applied by the
hidden filter of the crate to the entry file name. -/
def startsWithDot (name : String) : Bool :=
  match name.data with
  | [] => false
  | c :: _ => c == '.'

/-- Whether the walker skips (and does not descend into) the entry at path
`p` with file name `name`.  Git-sourced rules apply only when permitted by
`require_git` and the presence of a git repository, mirroring the crate. -/
def skipEntry (flags : WalkFlags) (m : FsModel) (p : RPath) (name : String) : Bool :=
  (flags.hidden && startsWithDot name)
  || (flags.git_ignore && (!flags.require_git || m.hasGitRepo) && m.gitignoreMatch p)
  || (flags.dot_ignore && m.dotignoreMatch p)
  || (flags.git_global && (!flags.require_git || m.hasGitRepo) && m.gitGlobalMatch p)
  || (flags.git_exclude && (!flags.require_git || m.hasGitRepo) && m.gitExcludeMatch p)
  || !flags.keep p

/-- Whether depth `d` exceeds the configured maximum. -/
def beyondDepth (flags : WalkFlags) (d : Nat) : Bool :=
  match flags.max_depth with
  | some md => decide (md < d)
  | none => false

mutual

/-- One non-root node of the walk: skipped entries produce nothing, a
surviving file or directory is yielded, an unreadable directory that
would be descended into additionally yields an item-level walk error, and
children beyond the depth limit are not descended into. -/
def walkNode (flags : WalkFlags) (m : FsModel) (p : RPath) (t : FsTree) (d : Nat) :
    List (Except SnapcatError RPath) :=
  match t with
  | .file name _ =>
    if skipEntry flags m p name then [] else [.ok p]
  | .dir name readable children =>
    if skipEntry flags m p name then []
    else
      .ok p ::
        (if beyondDepth flags (d + 1) then []
         else if readable then walkChildren flags m p children (d + 1)
         else [.error (.Walk (pathDisplay p))])

def walkChildren (flags : WalkFlags) (m : FsModel) (p : RPath) (ts : FsForest) (d : Nat) :
    List (Except SnapcatError RPath) :=
  match ts with
  | .nil => []
  | .cons c rest =>
    walkNode flags m (p ++ [.normal c.name]) c d ++ walkChildren flags m p rest d

end

/-- The full walk item sequence for the configured root: the root is
always yielded first (the crate applies no filter to the root itself),
then its contents, depth-first in directory order. -/
def walkItems (flags : WalkFlags) (m : FsModel) (root : RPath) :
    List (Except SnapcatError RPath) :=
  match m.tree with
  | .file _ _ => [.ok root]
  | .dir _ readable children =>
    .ok root ::
      (if beyondDepth flags 1 then []
       else if readable then walkChildren flags m root children 1
       else [.error (.Walk (pathDisplay root))])

/-- Names of the relative components when all are named components. -/
def compNames : RPath → Option (List String) :=
  mapOpt (fun c => match c with | .normal s => some s | _ => none)

/-- Look a node up by its relative name sequence. -/
def findNode : FsTree → List String → Option FsTree
  | t, [] => some t
  | .dir _ _ children, n :: rest =>
    match children.findByName n with
    | some c => findNode c rest
    | none => none
  | .file _ _, _ :: _ => none

/-- Look the node at path `p` up in the model (root-relative). -/
def lookupNode (m : FsModel) (root p : RPath) : Option FsTree :=
  if root.isPrefixOf p then
    match compNames (p.drop root.length) with
    | some names => findNode m.tree names
    | none => none
  else none

/-- Model of `Path::is_file` against the filesystem model. -/
def isFile (m : FsModel) (root p : RPath) : Bool :=
  match lookupNode m root p with
  | some (.file _ _) => true
  | _ => false

/-- The file data at path `p`, when `p` names a regular file. -/
def lookupFile (m : FsModel) (root p : RPath) : Option FsFile :=
  match lookupNode m root p with
  | some (.file _ data) => some data
  | _ => none

/-- Model of `types::FileEntry`. -/
structure FileEntry where
  path : RPath
  content : String
  is_binary : Bool
  size : Option Nat
deriving DecidableEq, Repr

/-- Model of `types::SnapcatResult`. -/
structure SnapcatResult where
  tree : String
  files : List FileEntry
deriving DecidableEq, Repr

/-- Model of collecting an iterator of results into a single result
(`collect::<Result<Vec<_>, _>>`): the values in order when all items are
ok, else the first error in iteration order. -/
def collectExcept {ε α : Type} : List (Except ε α) → Except ε (List α)
  | [] => .ok []
  | .error e :: _ => .error e
  | .ok a :: rest =>
    match collectExcept rest with
    | .error e => .error e
    | .ok vals => .ok (a :: vals)

/-- The per-file body shared (inlined in the source) by `process_files`,
`process_files_parallel` and `SnapcatStream::next`: read the content, then
stat again for the size when `include_file_size` is set, and build the
`FileEntry`.  A path with no file behind it fails as an I/O error tagged
with the path, as every real filesystem call on it would. -/
def fileTask (options : SnapcatOptions) (m : FsModel) (inspect : List Nat → Bool)
    (p : RPath) : Except SnapcatError FileEntry :=
  match lookupFile m options.root p with
  | none => .error (.Io p)
  | some f =>
    match read_file_content p f options.binary_detection options.file_size_limit inspect with
    | .error e => .error e
    | .ok (content, is_binary) =>
      if options.include_file_size then
        if f.statErr then .error (.Io p)
        else .ok ⟨p, content, is_binary, some f.size⟩
      else .ok ⟨p, content, is_binary, none⟩

/-- Model of `engine::process_files` (sequential): process the paths in
discovery order and stop at the first failing file. -/
def process_files (options : SnapcatOptions) (m : FsModel) (inspect : List Nat → Bool) :
    List RPath → Except SnapcatError (List FileEntry)
  | [] => .ok []
  | p :: rest =>
    match fileTask options m inspect p with
    | .error e => .error e
    | .ok entry =>
      match process_files options m inspect rest with
      | .error e => .error e
      | .ok entries => .ok (entry :: entries)

/-- Model of `engine::process_files_parallel`: every path is an
independent task (`par_iter().map(..)`) whose result lands at the same
position as its input, and the task results are collected positionally.
Rayon does not specify which error a failing collect returns; the model
picks the first in input order, and no theorem below relies on the choice. -/
def process_files_parallel (options : SnapcatOptions) (m : FsModel)
    (inspect : List Nat → Bool) (paths : List RPath) : Except SnapcatError (List FileEntry) :=
  collectExcept (paths.map (fileTask options m inspect))

/-- Model of `engine::snapcat` for both builds of the crate (`parallel`
feature off or on, selecting the sequential or parallel file processing).
`none` models a panic of the tree renderer, proved unreachable below;
`filePaths` is the `file_paths` filter of the source. -/
def filePaths (m : FsModel) (root : RPath) (entries : List RPath) : List RPath :=
  entries.filter (fun p => isFile m root p)

def snapcat (par : Bool) (options : SnapcatOptions) (m : FsModel)
    (globMatch : String → RPath → Bool) (inspect : List Nat → Bool) :
    Option (Except SnapcatError SnapcatResult) :=
  match collectExcept (walkItems (walkerFlags options globMatch) m options.root) with
  | .error e => some (.error e)
  | .ok all_entries =>
    match build_tree_from_entries options.root all_entries with
    | none => none
    | some tree =>
      match (if par then process_files_parallel options m inspect (filePaths m options.root all_entries)
             else process_files options m inspect (filePaths m options.root all_entries)) with
      | .error e => some (.error e)
      | .ok files => some (.ok ⟨tree, files⟩)

/-- Model of `engine::SnapcatStream`: the lazily filtered path sequence
(files kept, walk errors passed through) plus the options, as the state of
the pull-driven cursor. -/
structure SnapcatStream where
  path_iter : List (Except SnapcatError RPath)
  options : SnapcatOptions
  m : FsModel
  inspect : List Nat → Bool

/-- Model of `SnapcatStream::new`. -/
def SnapcatStream.new (options : SnapcatOptions) (m : FsModel)
    (globMatch : String → RPath → Bool) (inspect : List Nat → Bool) : SnapcatStream :=
  { path_iter :=
      (walkItems (walkerFlags options globMatch) m options.root).filterMap
        (fun it =>
          match it with
          | .ok p => if isFile m options.root p then some (.ok p) else none
          | .error e => some (.error e))
    options := options
    m := m
    inspect := inspect }

/-- Model of `SnapcatStream::next` (the `Iterator` impl): one pull takes
one item off the path sequence; a walk error is yielded as that item, a
path is processed synchronously and its result (ok or error) is yielded;
the stream state continues with the rest either way. -/
def SnapcatStream.next (s : SnapcatStream) :
    Option (Except SnapcatError FileEntry × SnapcatStream) :=
  match s.path_iter with
  | [] => none
  | .error e :: rest => some (.error e, { s with path_iter := rest })
  | .ok p :: rest => some (fileTask s.options s.m s.inspect p, { s with path_iter := rest })

/-- The item sequence obtained by pulling a stream with the given state to
exhaustion (structural helper for `SnapcatStream.run`). -/
def streamRunAux (options : SnapcatOptions) (m : FsModel) (inspect : List Nat → Bool) :
    List (Except SnapcatError RPath) → List (Except SnapcatError FileEntry)
  | [] => []
  | .error e :: rest => .error e :: streamRunAux options m inspect rest
  | .ok p :: rest => fileTask options m inspect p :: streamRunAux options m inspect rest

/-- The full unfolding of a stream by repeated pulls. -/
def SnapcatStream.run (s : SnapcatStream) : List (Except SnapcatError FileEntry) :=
  streamRunAux s.options s.m s.inspect s.path_iter

/-- Pulling repeatedly: `SnapcatStream.run` is exactly the unfolding of
`SnapcatStream.next`. -/
theorem SnapcatStream.run_eq_next (s : SnapcatStream) :
    s.run = (match s.next with
             | none => []
             | some (it, s2) => it :: s2.run) := by
  rcases s with ⟨iter, o, m, insp⟩
  cases iter with
  | nil => rfl
  | cons it rest => cases it <;> rfl

/-- True when every component of the path is a named component. -/
def allNormal (l : RPath) : Bool :=
  l.all (fun c => match c with | .normal _ => true | _ => false)

mutual

/-- Every path yielded by `walkNode` is its entry path or extends it by a
nonempty sequence of named components. -/
theorem walkNode_shape (flags : WalkFlags) (m : FsModel) (p : RPath) (t : FsTree) (d : Nat)
    (q : RPath) (hq : Except.ok q ∈ walkNode flags m p t d) :
    q = p ∨ ∃ rel, q = p ++ rel ∧ rel ≠ [] ∧ allNormal rel = true := by
  cases t with
  | file n data =>
    unfold walkNode at hq
    by_cases hskip : skipEntry flags m p n = true
    · rw [if_pos hskip] at hq
      exact absurd hq (List.not_mem_nil _)
    · rw [if_neg hskip] at hq
      rcases List.mem_cons.mp hq with h | h
      · injection h with h2
        exact Or.inl h2
      · exact absurd h (List.not_mem_nil _)
  | dir n readable children =>
    unfold walkNode at hq
    by_cases hskip : skipEntry flags m p n = true
    · rw [if_pos hskip] at hq
      exact absurd hq (List.not_mem_nil _)
    · rw [if_neg hskip] at hq
      rcases List.mem_cons.mp hq with h | h
      · injection h with h2
        exact Or.inl h2
      · by_cases hb : beyondDepth flags (d + 1) = true
        · rw [if_pos hb] at h
          exact absurd h (List.not_mem_nil _)
        · rw [if_neg hb] at h
          by_cases hr : readable = true
          · rw [if_pos hr] at h
            exact Or.inr (walkChildren_shape flags m p children (d + 1) q h)
          · rw [if_neg hr] at h
            rcases List.mem_cons.mp h with h2 | h2
            · exact absurd h2 (by simp)
            · exact absurd h2 (List.not_mem_nil _)

/-- Every path yielded by `walkChildren` extends the parent path by a
nonempty sequence of named components. -/
theorem walkChildren_shape (flags : WalkFlags) (m : FsModel) (p : RPath) (ts : FsForest)
    (d : Nat) (q : RPath) (hq : Except.ok q ∈ walkChildren flags m p ts d) :
    ∃ rel, q = p ++ rel ∧ rel ≠ [] ∧ allNormal rel = true := by
  cases ts with
  | nil =>
    unfold walkChildren at hq
    exact absurd hq (List.not_mem_nil _)
  | cons c restTs =>
    unfold walkChildren at hq
    rcases List.mem_append.mp hq with h | h
    · rcases walkNode_shape flags m (p ++ [.normal c.name]) c d q h with h1 | ⟨rel, h1, h2, h3⟩
      · exact ⟨[.normal c.name], h1, by simp, by simp [allNormal]⟩
      · refine ⟨.normal c.name :: rel, ?_, by simp, ?_⟩
        · rw [h1, List.append_assoc]
          rfl
        · have : allNormal (.normal c.name :: rel)
              = (allNormal [.normal c.name] && allNormal rel) := by
            simp [allNormal]
          rw [this, h3]
          simp [allNormal]
    · exact walkChildren_shape flags m p restTs d q h

end

/-- Every path yielded by the walk is the root or extends it by a nonempty
sequence of named components. -/
theorem walkItems_shape (flags : WalkFlags) (m : FsModel) (root : RPath) (q : RPath)
    (hq : Except.ok q ∈ walkItems flags m root) :
    q = root ∨ ∃ rel, q = root ++ rel ∧ rel ≠ [] ∧ allNormal rel = true := by
  unfold walkItems at hq
  cases htree : m.tree with
  | file n data =>
    rw [htree] at hq
    rcases List.mem_cons.mp hq with h | h
    · injection h with h2
      exact Or.inl h2
    · exact absurd h (List.not_mem_nil _)
  | dir n readable children =>
    rw [htree] at hq
    rcases List.mem_cons.mp hq with h | h
    · injection h with h2
      exact Or.inl h2
    · by_cases hb : beyondDepth flags 1 = true
      · rw [if_pos hb] at h
        exact absurd h (List.not_mem_nil _)
      · rw [if_neg hb] at h
        by_cases hr : readable = true
        · rw [if_pos hr] at h
          exact Or.inr (walkChildren_shape flags m root children 1 q h)
        · rw [if_neg hr] at h
          rcases List.mem_cons.mp h with h2 | h2
          · exact absurd h2 (by simp)
          · exact absurd h2 (List.not_mem_nil _)

/-- A nonempty all-named path has a file name. -/
theorem allNormal_fileName (rel : RPath) (hne : rel ≠ []) (hall : allNormal rel = true) :
    (fileName rel).isSome = true := by
  rcases List.eq_nil_or_concat rel with h | ⟨l2, a, h⟩
  · exact absurd h hne
  · subst h
    have ha : a ∈ l2.concat a := by simp
    have := (List.all_eq_true.mp hall) a ha
    cases a with
    | normal s =>
      have hg : (l2.concat (Comp.normal s)).getLast? = some (Comp.normal s) := by
        rw [List.concat_eq_append, List.getLast?_concat]
      simp [fileName, hg]
    | rootDir => simp at this
    | curDir => simp at this
    | parentDir => simp at this

/-- Collecting returns the first error when one exists. -/
theorem collectExcept_first_error {ε α : Type} (pre : List (Except ε α)) (e : ε)
    (rest : List (Except ε α)) (hpre : ∀ x ∈ pre, x.isOk = true) :
    collectExcept (pre ++ .error e :: rest) = .error e := by
  induction pre with
  | nil => rfl
  | cons x pre2 ih =>
    have hx := hpre x (List.mem_cons_self x pre2)
    cases x with
    | error e2 => exact absurd hx (by simp [Except.isOk, Except.toBool])
    | ok a =>
      show (match collectExcept (pre2 ++ .error e :: rest) with
            | .error e3 => (.error e3 : Except ε (List α))
            | .ok vals => .ok (a :: vals)) = .error e
      rw [ih (fun y hy => hpre y (List.mem_cons_of_mem _ hy))]

/-- Every value collected was an ok item of the input. -/
theorem collectExcept_ok_mem {ε α : Type} {l : List (Except ε α)} {vals : List α}
    (h : collectExcept l = .ok vals) : ∀ v ∈ vals, Except.ok v ∈ l := by
  induction l generalizing vals with
  | nil =>
    unfold collectExcept at h
    injection h with h2
    subst h2
    intro v hv
    exact absurd hv (List.not_mem_nil _)
  | cons x rest ih =>
    cases x with
    | error e => exact absurd h (by simp [collectExcept])
    | ok a =>
      unfold collectExcept at h
      cases hr : collectExcept rest with
      | error e =>
        rw [hr] at h
        exact absurd h (by simp)
      | ok vals2 =>
        rw [hr] at h
        injection h with h2
        subst h2
        intro v hv
        rcases List.mem_cons.mp hv with h3 | h3
        · subst h3
          exact List.mem_cons_self _ _
        · exact List.mem_cons_of_mem _ (ih hr v h3)

/-- When the walk collects without error, the tree renders (its panic is
unreachable), because every collected entry is the root or sits strictly
under it with a named last component. -/
theorem walk_entries_tree_some (options : SnapcatOptions) (globMatch : String → RPath → Bool)
    (m : FsModel) (entries : List RPath)
    (hw : collectExcept (walkItems (walkerFlags options globMatch) m options.root)
      = .ok entries) :
    (build_tree_from_entries options.root entries).isSome = true := by
  apply tree_renders_of_entries
  intro e2 he2 hne
  have hok := collectExcept_ok_mem hw e2 he2
  rcases walkItems_shape _ m options.root e2 hok with h | ⟨rel, hrel, hne2, hall⟩
  · exact absurd h hne
  · constructor
    · rw [hrel]
      exact List.isPrefixOf_iff_prefix.mpr (List.prefix_append options.root rel)
    · rw [hrel, List.drop_left]
      exact allNormal_fileName rel hne2 hall

/-- Sequential processing returns the error of the first failing file. -/
theorem process_files_first_error (options : SnapcatOptions) (m : FsModel)
    (inspect : List Nat → Bool) (pre : List RPath) (p : RPath) (rest : List RPath)
    (e : SnapcatError)
    (hpre : ∀ q ∈ pre, (fileTask options m inspect q).isOk = true)
    (herr : fileTask options m inspect p = .error e) :
    process_files options m inspect (pre ++ p :: rest) = .error e := by
  induction pre with
  | nil =>
    show process_files options m inspect (p :: rest) = .error e
    unfold process_files
    rw [herr]
  | cons q pre2 ih =>
    have hq := hpre q (List.mem_cons_self q pre2)
    cases ht : fileTask options m inspect q with
    | error e2 =>
      rw [ht] at hq
      exact absurd hq (by simp [Except.isOk, Except.toBool])
    | ok entry =>
      show process_files options m inspect (q :: (pre2 ++ p :: rest)) = .error e
      unfold process_files
      rw [ht, ih (fun y hy => hpre y (List.mem_cons_of_mem _ hy))]

/-- C9: a traversal error surfaced by the walker as an item aborts the
whole eager scan: when the walk sequence holds an error item (the first
one), `snapcat` returns it as the error of the operation before rendering the
tree or reading any file content, in both the sequential and the parallel
build. -/
theorem walk_error_aborts (par : Bool) (options : SnapcatOptions) (m : FsModel)
    (globMatch : String → RPath → Bool) (inspect : List Nat → Bool)
    (pre : List (Except SnapcatError RPath)) (e : SnapcatError)
    (rest : List (Except SnapcatError RPath))
    (hw : walkItems (walkerFlags options globMatch) m options.root = pre ++ .error e :: rest)
    (hpre : ∀ x ∈ pre, x.isOk = true) :
    snapcat par options m globMatch inspect = some (.error e) := by
  unfold snapcat
  rw [hw, collectExcept_first_error pre e rest hpre]

/-- Witness for C9: a scan whose root holds an unreadable subdirectory
returns the walk error for it. -/
theorem walk_error_aborts_witness :
    snapcat true
      ⟨[.normal "r"], true, none, false, false, [], none, .Simple, false⟩
      ⟨.dir "r" true (.cons (.dir "sub" false .nil) .nil), false,
        fun _ => false, fun _ => false, fun _ => false, fun _ => false⟩
      (fun _ _ => false) (fun _ => false)
      = some (.error (.Walk "r/sub")) :=
  walk_error_aborts true
    ⟨[.normal "r"], true, none, false, false, [], none, .Simple, false⟩
    ⟨.dir "r" true (.cons (.dir "sub" false .nil) .nil), false,
      fun _ => false, fun _ => false, fun _ => false, fun _ => false⟩
    (fun _ _ => false) (fun _ => false)
    [.ok [.normal "r"], .ok [.normal "r", .normal "sub"]] (.Walk "r/sub") []
    (by decide) (by decide)

/-- C7: in eager mode (sequential file processing, the build without the
`parallel` feature), the first content-read failure aborts the whole scan:
`snapcat` returns that failure as the error of the operation and no partial
result is produced. -/
theorem eager_read_error_aborts (options : SnapcatOptions) (m : FsModel)
    (globMatch : String → RPath → Bool) (inspect : List Nat → Bool)
    (entries : List RPath) (pre : List RPath) (p : RPath) (rest : List RPath)
    (e : SnapcatError)
    (hw : collectExcept (walkItems (walkerFlags options globMatch) m options.root)
      = .ok entries)
    (hsplit : filePaths m options.root entries = pre ++ p :: rest)
    (hpre : ∀ q ∈ pre, (fileTask options m inspect q).isOk = true)
    (herr : fileTask options m inspect p = .error e) :
    snapcat false options m globMatch inspect = some (.error e) := by
  have hts := walk_entries_tree_some options globMatch m entries hw
  have hproc : process_files options m inspect (filePaths m options.root entries)
      = .error e := by
    rw [hsplit]
    exact process_files_first_error options m inspect pre p rest e hpre herr
  unfold snapcat
  split
  · rename_i e2 heq
    rw [hw] at heq
    simp at heq
  · rename_i all_entries heq
    rw [hw] at heq
    injection heq with heq2
    subst heq2
    split
    · rename_i htree0
      rw [htree0] at hts
      simp at hts
    · rename_i tree htree0
      split
      · rename_i e2 hp2
        rw [if_neg (by simp : ¬ (false = true)), hproc] at hp2
        injection hp2 with hp3
        rw [hp3]
      · rename_i files hp2
        rw [if_neg (by simp : ¬ (false = true)), hproc] at hp2
        exact absurd hp2 (by simp)

/-- Witness for C7: a scan whose only file fails to open returns that
failure as the error of the operation. -/
theorem eager_read_error_aborts_witness :
    snapcat false
      ⟨[.normal "r"], true, none, false, false, [], none, .Simple, false⟩
      ⟨.dir "r" true (.cons (.file "bad.txt" ⟨1, [97], false, true, false, false⟩) .nil),
        false, fun _ => false, fun _ => false, fun _ => false, fun _ => false⟩
      (fun _ _ => false) (fun _ => false)
      = some (.error (.Io [.normal "r", .normal "bad.txt"])) :=
  eager_read_error_aborts
    ⟨[.normal "r"], true, none, false, false, [], none, .Simple, false⟩
    ⟨.dir "r" true (.cons (.file "bad.txt" ⟨1, [97], false, true, false, false⟩) .nil),
      false, fun _ => false, fun _ => false, fun _ => false, fun _ => false⟩
    (fun _ _ => false) (fun _ => false)
    [[.normal "r"], [.normal "r", .normal "bad.txt"]]
    [] [.normal "r", .normal "bad.txt"] []
    (.Io [.normal "r", .normal "bad.txt"])
    (by decide) (by decide) (by decide) (by decide)

/-- A successful file task produces an entry for its own path. -/
theorem fileTask_path (options : SnapcatOptions) (m : FsModel) (inspect : List Nat → Bool)
    (p : RPath) (entry : FileEntry)
    (h : fileTask options m inspect p = .ok entry) : entry.path = p := by
  unfold fileTask at h
  rcases hl : lookupFile m options.root p with _ | f
  · simp [hl] at h
  · simp only [hl] at h
    rcases hr : read_file_content p f options.binary_detection options.file_size_limit inspect
        with e | pair
    · simp [hr] at h
    · rcases pair with ⟨content, isb⟩
      simp only [hr] at h
      by_cases hi : options.include_file_size = true
      · rw [if_pos hi] at h
        by_cases hs : f.statErr = true
        · rw [if_pos hs] at h
          exact absurd h (by simp)
        · rw [if_neg hs] at h
          injection h with h2
          rw [← h2]
      · rw [if_neg hi] at h
        injection h with h2
        rw [← h2]

/-- Step equations for `collectExcept`. -/
theorem collectExcept_cons_error {ε α : Type} (e : ε) (l : List (Except ε α)) :
    collectExcept (.error e :: l) = .error e := rfl

theorem collectExcept_cons_ok_error {ε α : Type} (a : α) (l : List (Except ε α)) (e : ε)
    (h : collectExcept l = .error e) : collectExcept (.ok a :: l) = .error e := by
  unfold collectExcept
  rw [h]

theorem collectExcept_cons_ok_ok {ε α : Type} (a : α) (l : List (Except ε α)) (vals : List α)
    (h : collectExcept l = .ok vals) : collectExcept (.ok a :: l) = .ok (a :: vals) := by
  unfold collectExcept
  rw [h]

/-- C5: eager parallel and eager sequential processing are equivalent: for
every path list and options they produce a `FileEntry` list on exactly the
same inputs, and then the same list, whose order is the input (walker
discovery) order regardless of task completion order (each parallel task
has its result collected at its input position). -/
theorem eager_parallel_eq_sequential (options : SnapcatOptions) (m : FsModel)
    (inspect : List Nat → Bool) :
    ∀ (paths : List RPath) (l : List FileEntry),
      (process_files_parallel options m inspect paths = .ok l
        ↔ process_files options m inspect paths = .ok l)
      ∧ (process_files_parallel options m inspect paths = .ok l →
          l.map FileEntry.path = paths) := by
  intro paths
  induction paths with
  | nil =>
    intro l
    constructor
    · exact Iff.rfl
    · intro h
      unfold process_files_parallel collectExcept at h
      injection h with h2
      subst h2
      rfl
  | cons p rest ih =>
    intro l
    cases ht : fileTask options m inspect p with
    | error e =>
      have hpar : process_files_parallel options m inspect (p :: rest) = .error e := by
        unfold process_files_parallel
        rw [List.map_cons, ht]
        exact collectExcept_cons_error e _
      have hseq : process_files options m inspect (p :: rest) = .error e := by
        unfold process_files
        rw [ht]
      rw [hpar, hseq]
      exact ⟨Iff.rfl, fun h => absurd h (by simp)⟩
    | ok entry =>
      cases hr : process_files_parallel options m inspect rest with
      | error e2 =>
        have hpar : process_files_parallel options m inspect (p :: rest) = .error e2 := by
          unfold process_files_parallel
          rw [List.map_cons, ht]
          exact collectExcept_cons_ok_error entry _ e2 hr
        cases hs : process_files options m inspect rest with
        | ok vals => exact absurd (((ih vals).1).mpr hs) (by rw [hr]; simp)
        | error e3 =>
          have hseq : process_files options m inspect (p :: rest) = .error e3 := by
            unfold process_files
            rw [ht, hs]
          rw [hpar, hseq]
          exact ⟨⟨fun h => absurd h (by simp), fun h => absurd h (by simp)⟩,
            fun h => absurd h (by simp)⟩
      | ok vals =>
        have hs := ((ih vals).1).mp hr
        have hpar : process_files_parallel options m inspect (p :: rest)
            = .ok (entry :: vals) := by
          unfold process_files_parallel
          rw [List.map_cons, ht]
          exact collectExcept_cons_ok_ok entry _ vals hr
        have hseq : process_files options m inspect (p :: rest) = .ok (entry :: vals) := by
          unfold process_files
          rw [ht, hs]
        rw [hpar, hseq]
        constructor
        · exact Iff.rfl
        · intro h
          injection h with h2
          subst h2
          have h3 := (ih vals).2 hr
          show entry.path :: vals.map FileEntry.path = p :: rest
          rw [h3, fileTask_path options m inspect p entry ht]

/-- Witness for C5 at a concrete one-file scan. -/
theorem eager_parallel_eq_sequential_witness :
    process_files_parallel
        ⟨[.normal "r"], true, none, false, false, [], none, .Simple, false⟩
        ⟨.dir "r" true (.cons (.file "a.txt" ⟨1, [97], false, false, false, false⟩) .nil),
          false, fun _ => false, fun _ => false, fun _ => false, fun _ => false⟩
        (fun _ => false) [[.normal "r", .normal "a.txt"]]
      = .ok [⟨[.normal "r", .normal "a.txt"], "a", false, none⟩]
    ∧ [(⟨[.normal "r", .normal "a.txt"], "a", false, none⟩ : FileEntry)].map FileEntry.path
      = [[.normal "r", .normal "a.txt"]] := by
  have h := eager_parallel_eq_sequential
    ⟨[.normal "r"], true, none, false, false, [], none, .Simple, false⟩
    ⟨.dir "r" true (.cons (.file "a.txt" ⟨1, [97], false, false, false, false⟩) .nil),
      false, fun _ => false, fun _ => false, fun _ => false, fun _ => false⟩
    (fun _ => false) [[.normal "r", .normal "a.txt"]]
    [⟨[.normal "r", .normal "a.txt"], "a", false, none⟩]
  exact ⟨h.1.mpr (by decide), h.2 (h.1.mpr (by decide))⟩

/-- C8: in streaming mode a read failure on one file is yielded as that
error result of that item and does not terminate the sequence: the pull returns
the error with the stream state advanced past the item, and the full
unfolding of the stream continues with exactly the results of the
remaining items. -/
theorem stream_error_continues (options : SnapcatOptions) (m : FsModel)
    (inspect : List Nat → Bool) (p : RPath) (rest : List (Except SnapcatError RPath))
    (e : SnapcatError) (herr : fileTask options m inspect p = .error e) :
    SnapcatStream.next ⟨.ok p :: rest, options, m, inspect⟩
        = some (.error e, ⟨rest, options, m, inspect⟩)
      ∧ SnapcatStream.run ⟨.ok p :: rest, options, m, inspect⟩
        = .error e :: SnapcatStream.run ⟨rest, options, m, inspect⟩ := by
  constructor
  · have hstep : SnapcatStream.next ⟨.ok p :: rest, options, m, inspect⟩
        = some (fileTask options m inspect p, ⟨rest, options, m, inspect⟩) := rfl
    rw [hstep, herr]
  · have hstep : SnapcatStream.run ⟨.ok p :: rest, options, m, inspect⟩
        = fileTask options m inspect p :: SnapcatStream.run ⟨rest, options, m, inspect⟩ := rfl
    rw [hstep, herr]

/-- Witness for C8: a stream holding a failing file and then a good one
yields the error and then the entry of the good file. -/
theorem stream_error_continues_witness :
    SnapcatStream.next
      ⟨[.ok [.normal "r", .normal "bad.txt"], .ok [.normal "r", .normal "a.txt"]],
        ⟨[.normal "r"], true, none, false, false, [], none, .Simple, false⟩,
        ⟨.dir "r" true
          (.cons (.file "bad.txt" ⟨1, [97], false, true, false, false⟩)
            (.cons (.file "a.txt" ⟨1, [97], false, false, false, false⟩) .nil)),
          false, fun _ => false, fun _ => false, fun _ => false, fun _ => false⟩,
        fun _ => false⟩
      = some (.error (.Io [.normal "r", .normal "bad.txt"]),
          ⟨[.ok [.normal "r", .normal "a.txt"]],
            ⟨[.normal "r"], true, none, false, false, [], none, .Simple, false⟩,
            ⟨.dir "r" true
              (.cons (.file "bad.txt" ⟨1, [97], false, true, false, false⟩)
                (.cons (.file "a.txt" ⟨1, [97], false, false, false, false⟩) .nil)),
              false, fun _ => false, fun _ => false, fun _ => false, fun _ => false⟩,
            fun _ => false⟩)
    ∧ SnapcatStream.run
      ⟨[.ok [.normal "r", .normal "bad.txt"], .ok [.normal "r", .normal "a.txt"]],
        ⟨[.normal "r"], true, none, false, false, [], none, .Simple, false⟩,
        ⟨.dir "r" true
          (.cons (.file "bad.txt" ⟨1, [97], false, true, false, false⟩)
            (.cons (.file "a.txt" ⟨1, [97], false, false, false, false⟩) .nil)),
          false, fun _ => false, fun _ => false, fun _ => false, fun _ => false⟩,
        fun _ => false⟩
      = [.error (.Io [.normal "r", .normal "bad.txt"]),
         .ok ⟨[.normal "r", .normal "a.txt"], "a", false, none⟩] := by
  have h := stream_error_continues
    ⟨[.normal "r"], true, none, false, false, [], none, .Simple, false⟩
    ⟨.dir "r" true
      (.cons (.file "bad.txt" ⟨1, [97], false, true, false, false⟩)
        (.cons (.file "a.txt" ⟨1, [97], false, false, false, false⟩) .nil)),
      false, fun _ => false, fun _ => false, fun _ => false, fun _ => false⟩
    (fun _ => false) [.normal "r", .normal "bad.txt"]
    [.ok [.normal "r", .normal "a.txt"]]
    (.Io [.normal "r", .normal "bad.txt"]) (by decide)
  exact ⟨h.1, h.2.trans (by decide)⟩

/-- The model with its project-gitignore rule semantics replaced. -/
def setGitignore (m : FsModel) (g : RPath → Bool) : FsModel :=
  { m with gitignoreMatch := g }

/-- With the gitignore switch off, the skip decision ignores the
project-gitignore rules entirely. -/
theorem skipEntry_setGitignore (flags : WalkFlags) (m : FsModel) (g : RPath → Bool)
    (p : RPath) (name : String) (hflag : flags.git_ignore = false) :
    skipEntry flags (setGitignore m g) p name = skipEntry flags m p name := by
  unfold skipEntry setGitignore
  rw [hflag]
  simp

mutual

theorem walkNode_setGitignore (flags : WalkFlags) (m : FsModel) (g : RPath → Bool)
    (p : RPath) (t : FsTree) (d : Nat) (hflag : flags.git_ignore = false) :
    walkNode flags (setGitignore m g) p t d = walkNode flags m p t d := by
  cases t with
  | file n data =>
    unfold walkNode
    rw [skipEntry_setGitignore flags m g p n hflag]
  | dir n readable children =>
    unfold walkNode
    rw [skipEntry_setGitignore flags m g p n hflag,
        walkChildren_setGitignore flags m g p children (d + 1) hflag]

theorem walkChildren_setGitignore (flags : WalkFlags) (m : FsModel) (g : RPath → Bool)
    (p : RPath) (ts : FsForest) (d : Nat) (hflag : flags.git_ignore = false) :
    walkChildren flags (setGitignore m g) p ts d = walkChildren flags m p ts d := by
  cases ts with
  | nil => rfl
  | cons c rest =>
    unfold walkChildren
    rw [walkNode_setGitignore flags m g (p ++ [Comp.normal c.name]) c d hflag,
        walkChildren_setGitignore flags m g p rest d hflag]

end

/-- With the gitignore switch off, the walk sequence ignores the
project-gitignore rules entirely. -/
theorem walkItems_setGitignore (flags : WalkFlags) (m : FsModel) (g : RPath → Bool)
    (root : RPath) (hflag : flags.git_ignore = false) :
    walkItems flags (setGitignore m g) root = walkItems flags m root := by
  unfold walkItems
  have ht : (setGitignore m g).tree = m.tree := rfl
  rw [ht]
  rcases htree : m.tree with ⟨n, data⟩ | ⟨n, readable, children⟩
  · simp only [htree]
  · simp only [htree]
    rw [walkChildren_setGitignore flags m g root children 1 hflag]

/-- A surviving entry was not matched by the project gitignore rules when
the gitignore switch is on and the rules apply. -/
theorem skipEntry_false_gitignoreMatch (flags : WalkFlags) (m : FsModel) (p : RPath)
    (name : String) (hflag : flags.git_ignore = true) (hgit : m.hasGitRepo = true)
    (h : skipEntry flags m p name = false) : m.gitignoreMatch p = false := by
  unfold skipEntry at h
  simp only [Bool.or_eq_false_iff] at h
  have hB := h.1.1.1.1.2
  rw [hflag, hgit] at hB
  simpa using hB

mutual

theorem walkNode_gitignore_honored (flags : WalkFlags) (m : FsModel) (p : RPath)
    (t : FsTree) (d : Nat) (q : RPath) (hflag : flags.git_ignore = true)
    (hgit : m.hasGitRepo = true) (hq : Except.ok q ∈ walkNode flags m p t d) :
    m.gitignoreMatch q = false := by
  cases t with
  | file n data =>
    unfold walkNode at hq
    by_cases hskip : skipEntry flags m p n = true
    · rw [if_pos hskip] at hq
      exact absurd hq (List.not_mem_nil _)
    · have hskip2 : skipEntry flags m p n = false := by
        cases hval : skipEntry flags m p n
        · rfl
        · exact absurd hval hskip
      rw [if_neg hskip] at hq
      rcases List.mem_cons.mp hq with h | h
      · injection h with h2
        rw [h2]
        exact skipEntry_false_gitignoreMatch flags m p n hflag hgit hskip2
      · exact absurd h (List.not_mem_nil _)
  | dir n readable children =>
    unfold walkNode at hq
    by_cases hskip : skipEntry flags m p n = true
    · rw [if_pos hskip] at hq
      exact absurd hq (List.not_mem_nil _)
    · have hskip2 : skipEntry flags m p n = false := by
        cases hval : skipEntry flags m p n
        · rfl
        · exact absurd hval hskip
      rw [if_neg hskip] at hq
      rcases List.mem_cons.mp hq with h | h
      · injection h with h2
        rw [h2]
        exact skipEntry_false_gitignoreMatch flags m p n hflag hgit hskip2
      · by_cases hb : beyondDepth flags (d + 1) = true
        · rw [if_pos hb] at h
          exact absurd h (List.not_mem_nil _)
        · rw [if_neg hb] at h
          by_cases hr : readable = true
          · rw [if_pos hr] at h
            exact walkChildren_gitignore_honored flags m p children (d + 1) q hflag hgit h
          · rw [if_neg hr] at h
            rcases List.mem_cons.mp h with h2 | h2
            · exact absurd h2 (by simp)
            · exact absurd h2 (List.not_mem_nil _)

theorem walkChildren_gitignore_honored (flags : WalkFlags) (m : FsModel) (p : RPath)
    (ts : FsForest) (d : Nat) (q : RPath) (hflag : flags.git_ignore = true)
    (hgit : m.hasGitRepo = true) (hq : Except.ok q ∈ walkChildren flags m p ts d) :
    m.gitignoreMatch q = false := by
  cases ts with
  | nil =>
    unfold walkChildren at hq
    exact absurd hq (List.not_mem_nil _)
  | cons c rest =>
    unfold walkChildren at hq
    rcases List.mem_append.mp hq with h | h
    · exact walkNode_gitignore_honored flags m (p ++ [.normal c.name]) c d q hflag hgit h
    · exact walkChildren_gitignore_honored flags m p rest d q hflag hgit h

end

/-- When the gitignore switch is on and a git repository is present, no
path matched by the project gitignore rules survives the walk (apart from
the root, which the crate never filters). -/
theorem walkItems_gitignore_honored (flags : WalkFlags) (m : FsModel) (root : RPath)
    (q : RPath) (hflag : flags.git_ignore = true) (hgit : m.hasGitRepo = true)
    (hq : Except.ok q ∈ walkItems flags m root) :
    q = root ∨ m.gitignoreMatch q = false := by
  unfold walkItems at hq
  cases htree : m.tree with
  | file n data =>
    rw [htree] at hq
    rcases List.mem_cons.mp hq with h | h
    · injection h with h2
      exact Or.inl h2
    · exact absurd h (List.not_mem_nil _)
  | dir n readable children =>
    rw [htree] at hq
    rcases List.mem_cons.mp hq with h | h
    · injection h with h2
      exact Or.inl h2
    · by_cases hb : beyondDepth flags 1 = true
      · rw [if_pos hb] at h
        exact absurd h (List.not_mem_nil _)
      · rw [if_neg hb] at h
        by_cases hr : readable = true
        · rw [if_pos hr] at h
          exact Or.inr (walkChildren_gitignore_honored flags m root children 1 q hflag hgit h)
        · rw [if_neg hr] at h
          rcases List.mem_cons.mp h with h2 | h2
          · exact absurd h2 (by simp)
          · exact absurd h2 (List.not_mem_nil _)

/-- Counterexample to C2 at a concrete input: with `respect_gitignore`
unset, an ignore-file mechanism still excludes a path from the walk.
`Walker::new` sets `git_ignore(false)` and `ignore(false)` but leaves the
`git_exclude` and `git_global` switches of the crate at their enabled defaults,
so inside a git repository a file matched by the git-exclude ignore rules
(`.git/info/exclude`) is dropped from the walked sequence.  The two models
below differ only in their git-exclude rule semantics, yet with the flag
unset the first walk omits `r/a.txt` while the second yields it. -/
theorem respect_ignore_files_cex :
    walkItems
        (walkerFlags ⟨[.normal "r"], false, none, false, false, [], none, .Simple, false⟩
          (fun _ _ => false))
        ⟨.dir "r" true (.cons (.file "a.txt" ⟨1, [97], false, false, false, false⟩) .nil),
          true, fun _ => false, fun _ => false, fun _ => false,
          fun p => p == [Comp.normal "r", Comp.normal "a.txt"]⟩
        [.normal "r"]
      = [.ok [.normal "r"]]
    ∧ walkItems
        (walkerFlags ⟨[.normal "r"], false, none, false, false, [], none, .Simple, false⟩
          (fun _ _ => false))
        ⟨.dir "r" true (.cons (.file "a.txt" ⟨1, [97], false, false, false, false⟩) .nil),
          true, fun _ => false, fun _ => false, fun _ => false, fun _ => false⟩
        [.normal "r"]
      = [.ok [.normal "r"], .ok [.normal "r", .normal "a.txt"]] := by
  constructor
  · decide
  · decide

/-- C2 amended: the respect-ignore-files flag controls exactly the
project gitignore rules.  With the flag unset the walk is independent of
the project gitignore semantics (which is as far as the original claim can
be repaired: the crate-default git-exclude and global-gitignore sources
stay enabled regardless of the flag, see `respect_ignore_files_cex`, and
the always-disabled `.ignore` source never applies).  With the flag set
and a git repository present, the gitignore rules are honored: no matched
path other than the never-filtered root survives the walk. -/
theorem gitignore_flag_semantics (options : SnapcatOptions)
    (globMatch : String → RPath → Bool) (m : FsModel) (g : RPath → Bool) :
    (options.respect_gitignore = false →
      walkItems (walkerFlags options globMatch) (setGitignore m g) options.root
        = walkItems (walkerFlags options globMatch) m options.root)
    ∧ (options.respect_gitignore = true → m.hasGitRepo = true →
        ∀ q, Except.ok q ∈ walkItems (walkerFlags options globMatch) m options.root →
          q = options.root ∨ m.gitignoreMatch q = false) := by
  constructor
  · intro hflag
    exact walkItems_setGitignore (walkerFlags options globMatch) m g options.root hflag
  · intro hflag hgit q hq
    exact walkItems_gitignore_honored (walkerFlags options globMatch) m options.root q
      hflag hgit hq

/-- Witness for the amended C2, applying both directions at concrete
scans: with the flag unset the walk is unchanged under a gitignore
semantics that matches everything, and with the flag set inside a git
repository a surviving non-root path is unmatched. -/
theorem gitignore_flag_semantics_witness :
    walkItems
        (walkerFlags ⟨[.normal "r"], false, none, false, false, [], none, .Simple, false⟩
          (fun _ _ => false))
        (setGitignore
          ⟨.dir "r" true (.cons (.file "a.txt" ⟨1, [97], false, false, false, false⟩) .nil),
            true, fun _ => false, fun _ => false, fun _ => false, fun _ => false⟩
          (fun _ => true))
        [.normal "r"]
      = walkItems
          (walkerFlags ⟨[.normal "r"], false, none, false, false, [], none, .Simple, false⟩
            (fun _ _ => false))
          ⟨.dir "r" true (.cons (.file "a.txt" ⟨1, [97], false, false, false, false⟩) .nil),
            true, fun _ => false, fun _ => false, fun _ => false, fun _ => false⟩
          [.normal "r"]
    ∧ ([.normal "r", .normal "a.txt"] = ([.normal "r"] : RPath)
        ∨ (fun (_ : RPath) => false) [.normal "r", .normal "a.txt"] = false) := by
  constructor
  · exact (gitignore_flag_semantics
      ⟨[.normal "r"], false, none, false, false, [], none, .Simple, false⟩
      (fun _ _ => false)
      ⟨.dir "r" true (.cons (.file "a.txt" ⟨1, [97], false, false, false, false⟩) .nil),
        true, fun _ => false, fun _ => false, fun _ => false, fun _ => false⟩
      (fun _ => true)).1 rfl
  · exact (gitignore_flag_semantics
      ⟨[.normal "r"], true, none, false, false, [], none, .Simple, false⟩
      (fun _ _ => false)
      ⟨.dir "r" true (.cons (.file "a.txt" ⟨1, [97], false, false, false, false⟩) .nil),
        true, fun _ => false, fun _ => false, fun _ => false, fun _ => false⟩
      (fun _ => true)).2 rfl rfl [.normal "r", .normal "a.txt"] (by decide)
